import Mathlib

/-!
Verification of the feature-detection pipeline in
`Project2_Feature_Detection/features.py`.

Images and scalar fields are embedded as total functions `ℕ → ℕ → ℝ` (or a
generic linearly ordered type for order-only operations) together with
explicit height/width parameters; a field derived from an image is indexed
by the same `(h, w)`, which is the shallow-embedding counterpart of numpy's
shape preservation.  Matrices that the Python code materialises are embedded
as `List (List ℝ)` built by `mkMat`.  Fallible code (numpy `assert`,
Python `NameError`) is embedded with `Except String`.
-/

set_option maxHeartbeats 1000000

/-! ### scipy boundary handling: `mode='reflect'`

scipy's `reflect` mode extends a length-`n` axis symmetrically about the
array edges: `(d c b a | a b c d | d c b a)`.  The infinite extension is
periodic with period `2*n`; positions `m ∈ [0, n)` of a period map to index
`m` and positions `m ∈ [n, 2*n)` map to index `2*n - 1 - m`. -/

def reflectIdx (n : ℕ) (i : ℤ) : ℕ :=
  if i % (2 * (n : ℤ)) < (n : ℤ) then (i % (2 * (n : ℤ))).toNat
  else (2 * (n : ℤ) - 1 - i % (2 * (n : ℤ))).toNat

theorem reflectIdx_lt (n : ℕ) (i : ℤ) (hn : 0 < n) : reflectIdx n i < n := by
  have h2n : (0 : ℤ) < 2 * (n : ℤ) := by positivity
  have hm0 : 0 ≤ i % (2 * (n : ℤ)) := Int.emod_nonneg i (by omega)
  have hm1 : i % (2 * (n : ℤ)) < 2 * (n : ℤ) := Int.emod_lt_of_pos i h2n
  unfold reflectIdx
  split <;> omega

theorem reflectIdx_of_lt (n : ℕ) (i : ℤ) (h0 : 0 ≤ i) (h1 : i < (n : ℤ)) :
    (reflectIdx n i : ℤ) = i := by
  have hmod : i % (2 * (n : ℤ)) = i := Int.emod_eq_of_lt h0 (by omega)
  unfold reflectIdx
  rw [hmod]
  split <;> omega

theorem reflectIdx_coe (n x : ℕ) (h : x < n) : reflectIdx n (x : ℤ) = x := by
  have := reflectIdx_of_lt n (x : ℤ) (by positivity) (by exact_mod_cast h)
  exact_mod_cast this

/-- A reflected sample taken for a size-7 window centred at an in-bounds
pixel `y` stays inside the 7-window clipped to the array bounds. -/
theorem reflectIdx_window (n y : ℕ) (i : ℤ) (hn : 0 < n) (hy : y < n)
    (h1 : (y : ℤ) - 3 ≤ i) (h2 : i ≤ (y : ℤ) + 3) :
    reflectIdx n i < n ∧ (y : ℤ) - 3 ≤ (reflectIdx n i : ℤ) ∧
      (reflectIdx n i : ℤ) ≤ (y : ℤ) + 3 := by
  refine ⟨reflectIdx_lt n i hn, ?_⟩
  by_cases hsmall : n ≤ 3
  · have hr := reflectIdx_lt n i hn
    omega
  · -- `n ≥ 4`, so the extension wraps at most once on each side.
    have hn3 : (3 : ℤ) < (n : ℤ) := by exact_mod_cast Nat.lt_of_lt_of_le (by omega) (le_refl n)
    by_cases hpos : 0 ≤ i
    · -- `0 ≤ i ≤ y + 3 ≤ n + 2 < 2n`: the remainder is `i` itself.
      have hmod : i % (2 * (n : ℤ)) = i := Int.emod_eq_of_lt hpos (by omega)
      unfold reflectIdx
      rw [hmod]
      split
      · omega
      · have : (2 * (n : ℤ) - 1 - i).toNat = 2 * (n : ℤ) - 1 - i := by omega
        omega
    · -- `-3 ≤ i < 0`: the remainder is `i + 2n`, which reflects to `-i - 1`.
      have hmod : i % (2 * (n : ℤ)) = i + 2 * (n : ℤ) := by
        have h1' : (i + 2 * (n : ℤ)) % (2 * (n : ℤ)) = i % (2 * (n : ℤ)) := by
          have h0 := Int.add_mul_emod_self_left i (2 * (n : ℤ)) 1
          rw [mul_one] at h0
          exact h0
        have h2' : (i + 2 * (n : ℤ)) % (2 * (n : ℤ)) = i + 2 * (n : ℤ) :=
          Int.emod_eq_of_lt (by omega) (by omega)
        omega
      unfold reflectIdx
      rw [hmod]
      split
      · omega
      · have : (2 * (n : ℤ) - 1 - (i + 2 * (n : ℤ))).toNat
            = 2 * (n : ℤ) - 1 - (i + 2 * (n : ℤ)) := by omega
        omega

/-! ### Fold-max helper lemmas -/

section FoldMax

variable {α : Type} [LinearOrder α]

theorem le_foldl_max_init (l : List α) (a : α) : a ≤ l.foldl max a := by
  induction l generalizing a with
  | nil => exact le_refl a
  | cons b t ih =>
    rw [List.foldl_cons]
    exact le_trans (le_max_left a b) (ih (max a b))

theorem le_foldl_max_of_mem {l : List α} {b : α} (hb : b ∈ l) (a : α) :
    b ≤ l.foldl max a := by
  induction l generalizing a with
  | nil => cases hb
  | cons c t ih =>
    rw [List.foldl_cons]
    rcases List.mem_cons.mp hb with h | h
    · subst h
      exact le_trans (le_max_right a b) (le_foldl_max_init t (max a b))
    · exact ih h (max a c)

theorem foldl_max_le {l : List α} {a c : α} (ha : a ≤ c)
    (hl : ∀ b ∈ l, b ≤ c) : l.foldl max a ≤ c := by
  induction l generalizing a with
  | nil => exact ha
  | cons b t ih =>
    rw [List.foldl_cons]
    exact ih (max_le ha (hl b (List.mem_cons_self b t)))
      fun x hx => hl x (List.mem_cons_of_mem b hx)

theorem foldl_max_mem (l : List α) (a : α) : l.foldl max a = a ∨ l.foldl max a ∈ l := by
  induction l generalizing a with
  | nil => exact Or.inl rfl
  | cons b t ih =>
    rw [List.foldl_cons]
    rcases ih (max a b) with h | h
    · rcases max_cases a b with ⟨he, _⟩ | ⟨he, _⟩
      · exact Or.inl (h.trans he)
      · exact Or.inr (by rw [h, he]; exact List.mem_cons_self b t)
    · exact Or.inr (List.mem_cons_of_mem b h)

end FoldMax

/-! ### `HarrisKeypointDetector.computeLocalMaxima`

The Python code is
`destImage = (harrisImage == maximum_filter(harrisImage, size=(7,7)))`;
`maximum_filter` uses the default `mode='reflect'` boundary handling and a
centred 7×7 window. -/

def offs7 : List ℤ := [-3, -2, -1, 0, 1, 2, 3]

namespace HarrisKeypointDetector

variable {α : Type} [LinearOrder α]

/-- scipy `maximum_filter(R, size=(7,7))` (default `mode='reflect'`):
the maximum of the 49 reflect-extended samples of the centred window. -/
def maximumFilter7 (R : ℕ → ℕ → α) (h w : ℕ) (y x : ℕ) : α :=
  (offs7.flatMap fun dy => offs7.map fun dx =>
      R (reflectIdx h ((y : ℤ) + dy)) (reflectIdx w ((x : ℤ) + dx))).foldl
    max (R (reflectIdx h (y : ℤ)) (reflectIdx w (x : ℤ)))

/-- Embeds `HarrisKeypointDetector.computeLocalMaxima` (features.py:117-137):
pixelwise equality of the response with its 7×7 maximum filter. -/
def computeLocalMaxima [DecidableEq α] (R : ℕ → ℕ → α) (h w : ℕ) (y x : ℕ) : Bool :=
  decide (R y x = maximumFilter7 R h w y x)

end HarrisKeypointDetector

/-- The in-bounds pixels of the centred 7×7 window around `(y, x)`,
clipped at the image borders. -/
def clippedWindow (h w y x : ℕ) : List (ℕ × ℕ) :=
  ((List.range h).filter fun b => decide (y ≤ b + 3) && decide (b ≤ y + 3)).flatMap
    fun b => ((List.range w).filter fun a => decide (x ≤ a + 3) && decide (a ≤ x + 3)).map
      fun a => (b, a)

theorem mem_clippedWindow {h w y x b a : ℕ} :
    (b, a) ∈ clippedWindow h w y x ↔
      b < h ∧ a < w ∧ y ≤ b + 3 ∧ b ≤ y + 3 ∧ x ≤ a + 3 ∧ a ≤ x + 3 := by
  simp only [clippedWindow, List.mem_flatMap, List.mem_filter, List.mem_map,
    List.mem_range, Bool.and_eq_true, decide_eq_true_eq, Prod.mk.injEq]
  constructor
  · rintro ⟨b', ⟨hb', hy1, hy2⟩, a', ⟨⟨ha', hx1, hx2⟩, hba, haa⟩⟩
    subst hba; subst haa
    exact ⟨hb', ha', hy1, hy2, hx1, hx2⟩
  · rintro ⟨hb, ha, hy1, hy2, hx1, hx2⟩
    exact ⟨b, ⟨hb, hy1, hy2⟩, a, ⟨⟨ha, hx1, hx2⟩, rfl, rfl⟩⟩

/-- The maximum of the response over the clipped 7×7 window (the centre
pixel itself is in the window, so it serves as the fold seed). -/
def clippedWindowMax {α : Type} [LinearOrder α]
    (R : ℕ → ℕ → α) (h w y x : ℕ) : α :=
  ((clippedWindow h w y x).map fun p => R p.1 p.2).foldl max (R y x)

section LocalMaximaChar

variable {α : Type} [LinearOrder α]

/-- With reflective boundary handling, the 7×7 maximum filter agrees with
the maximum over the window clipped to the image bounds. -/
theorem maximumFilter7_eq_clippedWindowMax (R : ℕ → ℕ → α) (h w y x : ℕ)
    (hy : y < h) (hx : x < w) :
    HarrisKeypointDetector.maximumFilter7 R h w y x = clippedWindowMax R h w y x := by
  have hh : 0 < h := by omega
  have hw : 0 < w := by omega
  have hreflsame : R (reflectIdx h (y : ℤ)) (reflectIdx w (x : ℤ)) = R y x := by
    rw [reflectIdx_coe h y hy, reflectIdx_coe w x hx]
  -- every reflected sample is a clipped-window value
  have sample_mem : ∀ dy ∈ offs7, ∀ dx ∈ offs7,
      (reflectIdx h ((y : ℤ) + dy), reflectIdx w ((x : ℤ) + dx)) ∈
        clippedWindow h w y x := by
    intro dy hdy dx hdx
    have hdy' : -3 ≤ dy ∧ dy ≤ 3 := by fin_cases hdy <;> norm_num
    have hdx' : -3 ≤ dx ∧ dx ≤ 3 := by fin_cases hdx <;> norm_num
    have hb := reflectIdx_window h y ((y : ℤ) + dy) hh hy (by omega) (by omega)
    have ha := reflectIdx_window w x ((x : ℤ) + dx) hw hx (by omega) (by omega)
    rw [mem_clippedWindow]
    refine ⟨hb.1, ha.1, ?_, ?_, ?_, ?_⟩ <;> omega
  -- every clipped-window pixel is a reflected sample
  have mem_sample : ∀ p ∈ clippedWindow h w y x,
      ∃ dy ∈ offs7, ∃ dx ∈ offs7,
        p = (reflectIdx h ((y : ℤ) + dy), reflectIdx w ((x : ℤ) + dx)) := by
    intro p hp
    obtain ⟨b, a⟩ := p
    rw [mem_clippedWindow] at hp
    obtain ⟨hb, ha, hy1, hy2, hx1, hx2⟩ := hp
    refine ⟨(b : ℤ) - (y : ℤ), ?_, (a : ℤ) - (x : ℤ), ?_, ?_⟩
    · have : (b : ℤ) - (y : ℤ) = -3 ∨ (b : ℤ) - (y : ℤ) = -2 ∨ (b : ℤ) - (y : ℤ) = -1 ∨
          (b : ℤ) - (y : ℤ) = 0 ∨ (b : ℤ) - (y : ℤ) = 1 ∨ (b : ℤ) - (y : ℤ) = 2 ∨
          (b : ℤ) - (y : ℤ) = 3 := by omega
      rcases this with h' | h' | h' | h' | h' | h' | h' <;> rw [h'] <;> simp [offs7]
    · have : (a : ℤ) - (x : ℤ) = -3 ∨ (a : ℤ) - (x : ℤ) = -2 ∨ (a : ℤ) - (x : ℤ) = -1 ∨
          (a : ℤ) - (x : ℤ) = 0 ∨ (a : ℤ) - (x : ℤ) = 1 ∨ (a : ℤ) - (x : ℤ) = 2 ∨
          (a : ℤ) - (x : ℤ) = 3 := by omega
      rcases this with h' | h' | h' | h' | h' | h' | h' <;> rw [h'] <;> simp [offs7]
    · have e1 : (y : ℤ) + ((b : ℤ) - (y : ℤ)) = (b : ℤ) := by ring
      have e2 : (x : ℤ) + ((a : ℤ) - (x : ℤ)) = (a : ℤ) := by ring
      rw [e1, e2, reflectIdx_coe h b hb, reflectIdx_coe w a ha]
  apply le_antisymm
  · apply foldl_max_le
    · rw [hreflsame]
      exact le_foldl_max_init _ _
    · intro v hv
      rw [List.mem_flatMap] at hv
      obtain ⟨dy, hdy, hv⟩ := hv
      rw [List.mem_map] at hv
      obtain ⟨dx, hdx, hv⟩ := hv
      subst hv
      refine le_foldl_max_of_mem ?_ (R y x)
      rw [List.mem_map]
      exact ⟨_, sample_mem dy hdy dx hdx, rfl⟩
  · apply foldl_max_le
    · rw [← hreflsame]
      exact le_foldl_max_init _ _
    · intro v hv
      rw [List.mem_map] at hv
      obtain ⟨p, hp, hv⟩ := hv
      subst hv
      obtain ⟨dy, hdy, dx, hdx, hpe⟩ := mem_sample p hp
      refine le_foldl_max_of_mem ?_ _
      rw [List.mem_flatMap]
      refine ⟨dy, hdy, ?_⟩
      rw [List.mem_map]
      exact ⟨dx, hdx, by rw [hpe]⟩

/-- Characterisation used by several claims: at an in-bounds pixel the
local-maxima mask holds iff the response equals its clipped 7×7 window
maximum. -/
theorem computeLocalMaxima_iff [DecidableEq α] (R : ℕ → ℕ → α) (h w y x : ℕ)
    (hy : y < h) (hx : x < w) :
    HarrisKeypointDetector.computeLocalMaxima R h w y x = true ↔
      R y x = clippedWindowMax R h w y x := by
  unfold HarrisKeypointDetector.computeLocalMaxima
  rw [decide_eq_true_eq, maximumFilter7_eq_clippedWindowMax R h w y x hy hx]

end LocalMaximaChar

/-- Claim **C3.** For every response field and every in-bounds pixel (including
border and corner pixels, where the window is clipped), the mask produced by
`computeLocalMaxima` is true at `(y, x)` iff `R y x` equals the maximum of
`R` over the centred 7×7 neighbourhood clipped to the image bounds; ties all
satisfy the equality, hence are all marked true. -/
theorem claim_C3_localMaxima_iff_clipped_max {α : Type} [LinearOrder α]
    [DecidableEq α] (R : ℕ → ℕ → α) (h w y x : ℕ) (hy : y < h) (hx : x < w) :
    HarrisKeypointDetector.computeLocalMaxima R h w y x = true ↔
      R y x = clippedWindowMax R h w y x :=
  computeLocalMaxima_iff R h w y x hy hx

/-- Witness for C3 at a concrete 2×2 rational response field and the corner
pixel `(0, 0)`, where the window is clipped to the whole field. -/
theorem claim_C3_localMaxima_iff_clipped_max_witness :
    (HarrisKeypointDetector.computeLocalMaxima
        (fun y x => (y * 2 + x : ℚ)) 2 2 0 0 = true ↔
      (fun y x => (y * 2 + x : ℚ)) 0 0 =
        clippedWindowMax (fun y x => (y * 2 + x : ℚ)) 2 2 0 0) :=
  claim_C3_localMaxima_iff_clipped_max (fun y x => (y * 2 + x : ℚ)) 2 2 0 0
    (by norm_num) (by norm_num)

/-! ### `HarrisKeypointDetector.computeHarrisValues` (features.py:74-114)

The Python code uses `scipy.ndimage.sobel` (a separable 3×3 Sobel
derivative: correlation with `[-1, 0, 1]` along the derivative axis
followed by `[1, 2, 1]` along the other axis, `mode='reflect'`) and
`scipy.ndimage.filters.gaussian_filter(·, sigma=.5)` (a separable
correlation with the normalised truncated Gaussian kernel of radius
`int(4*0.5 + 0.5) = 2`, weights `exp(-x²/(2·0.25)) = exp(-2x²)` for
`x = -2..2`, `mode='reflect'`). -/

/-- A reflect-extended sample of a field at possibly out-of-bounds integer
coordinates. -/
noncomputable def sampleR (T : ℕ → ℕ → ℝ) (h w : ℕ) (y x : ℤ) : ℝ :=
  T (reflectIdx h y) (reflectIdx w x)

/-- correlate1d with weights `[-1, 0, 1]` along axis 1 (columns). -/
noncomputable def corrDerivX (T : ℕ → ℕ → ℝ) (h w : ℕ) (y x : ℕ) : ℝ :=
  -sampleR T h w (y : ℤ) ((x : ℤ) - 1) + sampleR T h w (y : ℤ) ((x : ℤ) + 1)

/-- correlate1d with weights `[-1, 0, 1]` along axis 0 (rows). -/
noncomputable def corrDerivY (T : ℕ → ℕ → ℝ) (h w : ℕ) (y x : ℕ) : ℝ :=
  -sampleR T h w ((y : ℤ) - 1) (x : ℤ) + sampleR T h w ((y : ℤ) + 1) (x : ℤ)

/-- correlate1d with weights `[1, 2, 1]` along axis 1 (columns). -/
noncomputable def corrSmoothX (T : ℕ → ℕ → ℝ) (h w : ℕ) (y x : ℕ) : ℝ :=
  sampleR T h w (y : ℤ) ((x : ℤ) - 1) + 2 * sampleR T h w (y : ℤ) (x : ℤ) +
    sampleR T h w (y : ℤ) ((x : ℤ) + 1)

/-- correlate1d with weights `[1, 2, 1]` along axis 0 (rows). -/
noncomputable def corrSmoothY (T : ℕ → ℕ → ℝ) (h w : ℕ) (y x : ℕ) : ℝ :=
  sampleR T h w ((y : ℤ) - 1) (x : ℤ) + 2 * sampleR T h w (y : ℤ) (x : ℤ) +
    sampleR T h w ((y : ℤ) + 1) (x : ℤ)

/-- Embeds `scipy.ndimage.sobel(src, axis=1, mode='reflect')`. -/
noncomputable def sobelX (src : ℕ → ℕ → ℝ) (h w : ℕ) : ℕ → ℕ → ℝ :=
  corrSmoothY (corrDerivX src h w) h w

/-- Embeds `scipy.ndimage.sobel(src, axis=0, mode='reflect')`. -/
noncomputable def sobelY (src : ℕ → ℕ → ℝ) (h w : ℕ) : ℕ → ℕ → ℝ :=
  corrSmoothX (corrDerivY src h w) h w

/-- Unnormalised Gaussian tap for `sigma = 0.5`: `exp(-k²/(2·0.25))`. -/
noncomputable def gaussWeight (k : ℤ) : ℝ := Real.exp (-2 * (k : ℝ) ^ 2)

/-- Sum of the five taps of the truncated `sigma = 0.5` kernel. -/
noncomputable def gaussNorm : ℝ := gaussWeight 0 + 2 * gaussWeight 1 + 2 * gaussWeight 2

/-- correlate1d with the normalised `sigma = 0.5` Gaussian kernel along
axis 0 (rows). -/
noncomputable def corrGaussY (T : ℕ → ℕ → ℝ) (h w : ℕ) (y x : ℕ) : ℝ :=
  (gaussWeight (-2) * sampleR T h w ((y : ℤ) - 2) (x : ℤ) +
    gaussWeight (-1) * sampleR T h w ((y : ℤ) - 1) (x : ℤ) +
    gaussWeight 0 * sampleR T h w (y : ℤ) (x : ℤ) +
    gaussWeight 1 * sampleR T h w ((y : ℤ) + 1) (x : ℤ) +
    gaussWeight 2 * sampleR T h w ((y : ℤ) + 2) (x : ℤ)) / gaussNorm

/-- correlate1d with the normalised `sigma = 0.5` Gaussian kernel along
axis 1 (columns). -/
noncomputable def corrGaussX (T : ℕ → ℕ → ℝ) (h w : ℕ) (y x : ℕ) : ℝ :=
  (gaussWeight (-2) * sampleR T h w (y : ℤ) ((x : ℤ) - 2) +
    gaussWeight (-1) * sampleR T h w (y : ℤ) ((x : ℤ) - 1) +
    gaussWeight 0 * sampleR T h w (y : ℤ) (x : ℤ) +
    gaussWeight 1 * sampleR T h w (y : ℤ) ((x : ℤ) + 1) +
    gaussWeight 2 * sampleR T h w (y : ℤ) ((x : ℤ) + 2)) / gaussNorm

/-- Embeds `scipy.ndimage.filters.gaussian_filter(T, sigma=.5)`: the separable
kernel applied along axis 0 then axis 1, `mode='reflect'`. -/
noncomputable def gaussian_filter05 (T : ℕ → ℕ → ℝ) (h w : ℕ) : ℕ → ℕ → ℝ :=
  corrGaussX (corrGaussY T h w) h w

/-- Embeds `A = gaussian_filter(index_x**2, sigma=.5)` (features.py:103). -/
noncomputable def harrisA (src : ℕ → ℕ → ℝ) (h w : ℕ) : ℕ → ℕ → ℝ :=
  gaussian_filter05 (fun y x => (sobelX src h w y x) ^ 2) h w

/-- Embeds `B = gaussian_filter(index_y*index_x, sigma=.5)` (features.py:104). -/
noncomputable def harrisB (src : ℕ → ℕ → ℝ) (h w : ℕ) : ℕ → ℕ → ℝ :=
  gaussian_filter05 (fun y x => sobelY src h w y x * sobelX src h w y x) h w

/-- Embeds `C = gaussian_filter(index_y**2, sigma=.5)` (features.py:105). -/
noncomputable def harrisC (src : ℕ → ℕ → ℝ) (h w : ℕ) : ℕ → ℕ → ℝ :=
  gaussian_filter05 (fun y x => (sobelY src h w y x) ^ 2) h w

/-- Embeds `np.arctan2 y x`: the quadrant-aware arctangent. -/
noncomputable def arctan2 (y x : ℝ) : ℝ :=
  if 0 < x then Real.arctan (y / x)
  else if x < 0 ∧ 0 ≤ y then Real.arctan (y / x) + Real.pi
  else if x < 0 ∧ y < 0 then Real.arctan (y / x) - Real.pi
  else if x = 0 ∧ 0 < y then Real.pi / 2
  else if x = 0 ∧ y < 0 then -(Real.pi / 2)
  else 0

/-- A materialised `h × w` matrix of field values, row-major as in numpy. -/
def mkMat {β : Type} (h w : ℕ) (f : ℕ → ℕ → β) : List (List β) :=
  (List.range h).map fun y => (List.range w).map fun x => f y x

theorem mkMat_length {β : Type} (h w : ℕ) (f : ℕ → ℕ → β) :
    (mkMat h w f).length = h := by
  simp [mkMat]

theorem mkMat_row_length {β : Type} (h w : ℕ) (f : ℕ → ℕ → β) (d : List β)
    (y : ℕ) (hy : y < h) : ((mkMat h w f).getD y d).length = w := by
  simp [mkMat, List.getD_eq_getElem?_getD, List.getElem?_map, List.getElem?_range, hy]

theorem mkMat_entry {β : Type} (h w : ℕ) (f : ℕ → ℕ → β) (d : List β) (e : β)
    (y x : ℕ) (hy : y < h) (hx : x < w) :
    ((mkMat h w f).getD y d).getD x e = f y x := by
  simp [mkMat, List.getD_eq_getElem?_getD, List.getElem?_map, List.getElem?_range, hy, hx]

namespace HarrisKeypointDetector

/-- The per-pixel Harris response of features.py:98-111:
`det = A*C - B**2`, `trace = A + C`, `harrisImage = det - 0.1*(trace**2)`. -/
noncomputable def harrisF (src : ℕ → ℕ → ℝ) (h w : ℕ) (y x : ℕ) : ℝ :=
  harrisA src h w y x * harrisC src h w y x - (harrisB src h w y x) ^ 2 -
    0.1 * (harrisA src h w y x + harrisC src h w y x) ^ 2

/-- The per-pixel orientation of features.py:113:
`orientationImage = np.arctan2(index_y, index_x)*180/np.pi`. -/
noncomputable def orientationF (src : ℕ → ℕ → ℝ) (h w : ℕ) (y x : ℕ) : ℝ :=
  arctan2 (sobelY src h w y x) (sobelX src h w y x) * 180 / Real.pi

/-- Embeds `HarrisKeypointDetector.computeHarrisValues` (features.py:74-114). -/
noncomputable def computeHarrisValues (src : ℕ → ℕ → ℝ) (h w : ℕ) :
    List (List ℝ) × List (List ℝ) :=
  (mkMat h w (harrisF src h w), mkMat h w (orientationF src h w))

end HarrisKeypointDetector

/-- Claim **C5.** `computeHarrisValues` returns `(R, Θ)` where
`R = A·C − B² − 0.1·(A + C)²` with `A, B, C` the Gaussian σ=0.5 smoothings
of `Ix²`, `Iy·Ix`, `Iy²` (with `Ix`, `Iy` the 3×3 Sobel derivatives with
reflective boundary handling), `Θ = atan2(Iy, Ix)` converted to degrees, and
both returned fields have the same `h × w` shape as the input. -/
theorem claim_C5_computeHarrisValues_spec (src : ℕ → ℕ → ℝ) (h w : ℕ) :
    (HarrisKeypointDetector.computeHarrisValues src h w).1.length = h ∧
    (HarrisKeypointDetector.computeHarrisValues src h w).2.length = h ∧
    (∀ y, y < h →
      (((HarrisKeypointDetector.computeHarrisValues src h w).1.getD y []).length = w ∧
       ((HarrisKeypointDetector.computeHarrisValues src h w).2.getD y []).length = w)) ∧
    (∀ y x, y < h → x < w →
      (((HarrisKeypointDetector.computeHarrisValues src h w).1.getD y []).getD x 0 =
        harrisA src h w y x * harrisC src h w y x - (harrisB src h w y x) ^ 2 -
          0.1 * (harrisA src h w y x + harrisC src h w y x) ^ 2 ∧
       ((HarrisKeypointDetector.computeHarrisValues src h w).2.getD y []).getD x 0 =
        arctan2 (sobelY src h w y x) (sobelX src h w y x) * 180 / Real.pi)) := by
  refine ⟨mkMat_length h w _, mkMat_length h w _, ?_, ?_⟩
  · intro y hy
    exact ⟨mkMat_row_length h w _ [] y hy, mkMat_row_length h w _ [] y hy⟩
  · intro y x hy hx
    constructor
    · rw [show (HarrisKeypointDetector.computeHarrisValues src h w).1 =
          mkMat h w (HarrisKeypointDetector.harrisF src h w) from rfl]
      rw [mkMat_entry h w _ [] 0 y x hy hx]
      rfl
    · rw [show (HarrisKeypointDetector.computeHarrisValues src h w).2 =
          mkMat h w (HarrisKeypointDetector.orientationF src h w) from rfl]
      rw [mkMat_entry h w _ [] 0 y x hy hx]
      rfl

/-- Witness for C5 at a concrete constant image of size 1×1, pixel (0,0). -/
theorem claim_C5_computeHarrisValues_spec_witness :
    ((HarrisKeypointDetector.computeHarrisValues (fun _ _ => (0 : ℝ)) 1 1).1.getD 0 []).getD 0 0 =
      harrisA (fun _ _ => (0 : ℝ)) 1 1 0 0 * harrisC (fun _ _ => (0 : ℝ)) 1 1 0 0 -
        (harrisB (fun _ _ => (0 : ℝ)) 1 1 0 0) ^ 2 -
        0.1 * (harrisA (fun _ _ => (0 : ℝ)) 1 1 0 0 + harrisC (fun _ _ => (0 : ℝ)) 1 1 0 0) ^ 2 :=
  ((claim_C5_computeHarrisValues_spec (fun _ _ => (0 : ℝ)) 1 1).2.2.2 0 0
    (by norm_num) (by norm_num)).1

/-! ### `HarrisKeypointDetector.detectKeypoints` (features.py:139-185) -/

/-- Embeds `cv2.KeyPoint` as filled in by the detector: `f.pt`, `f.size`,
`f.angle`, `f.response`. -/
structure KeyPoint where
  pt : ℝ × ℝ
  size : ℝ
  angle : ℝ
  response : ℝ

/-- Embeds `image.astype(np.float32); image /= 255.` applied to one BGR pixel. -/
noncomputable def scalePixel (p : ℝ × ℝ × ℝ) : ℝ × ℝ × ℝ :=
  (p.1 / 255, p.2.1 / 255, p.2.2 / 255)

/-- Embeds `cv2.cvtColor(image, cv2.COLOR_BGR2GRAY)` on one BGR pixel:
`Y = 0.299 R + 0.587 G + 0.114 B`. -/
noncomputable def bgrToGray (p : ℝ × ℝ × ℝ) : ℝ :=
  0.299 * p.2.2 + 0.587 * p.2.1 + 0.114 * p.1

/-- The grayscale field the detector derives from the BGR input. -/
noncomputable def grayOf (image : ℕ → ℕ → ℝ × ℝ × ℝ) : ℕ → ℕ → ℝ :=
  fun y x => bgrToGray (scalePixel (image y x))

/-- Indexing `m[y][x]` into a materialised matrix. -/
def matEntry (m : List (List ℝ)) : ℕ → ℕ → ℝ :=
  fun y x => (m.getD y []).getD x 0

/-- Row-major pixel traversal: `for y in range(height): for x in range(width)`. -/
def rowMajorPixels (h w : ℕ) : List (ℕ × ℕ) :=
  (List.range h).flatMap fun y => (List.range w).map fun x => (y, x)

theorem mem_rowMajorPixels {h w y x : ℕ} :
    (y, x) ∈ rowMajorPixels h w ↔ y < h ∧ x < w := by
  simp only [rowMajorPixels, List.mem_flatMap, List.mem_map, List.mem_range,
    Prod.mk.injEq]
  constructor
  · rintro ⟨y', hy', x', hx', hye, hxe⟩
    subst hye; subst hxe
    exact ⟨hy', hx'⟩
  · rintro ⟨hy, hx⟩
    exact ⟨y, hy, x, hx, rfl, rfl⟩

/-- The Harris matrix the detector computes (`harrisImage` local of
features.py:161). -/
noncomputable def hMatOf (image : ℕ → ℕ → ℝ × ℝ × ℝ) (h w : ℕ) : List (List ℝ) :=
  (HarrisKeypointDetector.computeHarrisValues (grayOf image) h w).1

/-- The orientation matrix the detector computes (`orientationImage` local
of features.py:161). -/
noncomputable def oMatOf (image : ℕ → ℕ → ℝ × ℝ × ℝ) (h w : ℕ) : List (List ℝ) :=
  (HarrisKeypointDetector.computeHarrisValues (grayOf image) h w).2

/-- The local-maxima mask the detector computes (`harrisMaxImage` local of
features.py:165). -/
noncomputable def maskOf (image : ℕ → ℕ → ℝ × ℝ × ℝ) (h w : ℕ) (y x : ℕ) : Bool :=
  HarrisKeypointDetector.computeLocalMaxima (matEntry (hMatOf image h w)) h w y x

/-- The keypoint record appended for a mask-true pixel (features.py:178-184):
`f.size = 10`, `f.pt = (x, y)`, `f.angle = orientationImage[y][x]`,
`f.response = harrisImage[y][x]`. -/
noncomputable def kpOf (image : ℕ → ℕ → ℝ × ℝ × ℝ) (h w : ℕ) (y x : ℕ) : KeyPoint :=
  ⟨((x : ℝ), (y : ℝ)), 10, matEntry (oMatOf image h w) y x, matEntry (hMatOf image h w) y x⟩

namespace HarrisKeypointDetector

/-- Embeds `HarrisKeypointDetector.detectKeypoints` (features.py:139-185): scale
to `[0,1]`, convert to grayscale, compute the Harris and orientation
fields, compute the local-maxima mask, then scan pixels in row-major
order (`y` outer, `x` inner) appending one keypoint per mask-true pixel. -/
noncomputable def detectKeypoints (image : ℕ → ℕ → ℝ × ℝ × ℝ) (h w : ℕ) :
    List KeyPoint :=
  (List.range h).foldl (fun acc y =>
    (List.range w).foldl (fun acc2 x =>
      if maskOf image h w y x then acc2 ++ [kpOf image h w y x] else acc2) acc) []

end HarrisKeypointDetector

/-! Normal form of the nested accumulation loops. -/

theorem foldl_if_append {β γ : Type} (l : List β) (acc : List γ)
    (P : β → Bool) (f : β → γ) :
    l.foldl (fun a b => if P b then a ++ [f b] else a) acc
      = acc ++ (l.filter P).map f := by
  induction l generalizing acc with
  | nil => simp
  | cons b t ih =>
    rw [List.foldl_cons]
    by_cases hb : P b
    · simp only [hb, if_true, List.filter_cons_of_pos hb, List.map_cons]
      rw [ih]
      simp
    · have hb' : P b = false := by simpa using hb
      rw [List.filter_cons_of_neg hb]
      simp only [hb', if_false, Bool.false_eq_true]
      exact ih acc

/-- The detector's nested loops produce exactly the row-major
filter-and-map over pixels. -/
theorem detectKeypoints_eq (image : ℕ → ℕ → ℝ × ℝ × ℝ) (h w : ℕ) :
    HarrisKeypointDetector.detectKeypoints image h w =
      ((rowMajorPixels h w).filter fun p => maskOf image h w p.1 p.2).map
        fun p => kpOf image h w p.1 p.2 := by
  have outer : ∀ (l : List ℕ) (acc : List KeyPoint),
      l.foldl (fun acc y =>
        (List.range w).foldl (fun acc2 x =>
          if maskOf image h w y x then acc2 ++ [kpOf image h w y x] else acc2) acc) acc
        = acc ++ l.flatMap fun y =>
            (((List.range w).filter fun x => maskOf image h w y x).map
              fun x => kpOf image h w y x) := by
    intro l
    induction l with
    | nil => intro acc; simp
    | cons b t ih =>
      intro acc
      rw [List.foldl_cons, foldl_if_append, ih, List.flatMap_cons, List.append_assoc]
  rw [HarrisKeypointDetector.detectKeypoints, outer (List.range h) [], List.nil_append]
  rw [rowMajorPixels, List.filter_flatMap, List.map_flatMap]
  apply congrArg ((List.range h).flatMap ·)
  funext y
  rw [List.filter_map, List.map_map]
  rfl

/-- Lemma: `maximumFilter7` only samples the field at in-bounds (reflected)
indices, so it respects pointwise-in-bounds equality of fields. -/
theorem maximumFilter7_congr {α : Type} [LinearOrder α] (R R' : ℕ → ℕ → α)
    (h w y x : ℕ) (hh : 0 < h) (hw : 0 < w)
    (he : ∀ y' x', y' < h → x' < w → R y' x' = R' y' x') :
    HarrisKeypointDetector.maximumFilter7 R h w y x =
      HarrisKeypointDetector.maximumFilter7 R' h w y x := by
  unfold HarrisKeypointDetector.maximumFilter7
  have hfun : (fun dy : ℤ => offs7.map fun dx : ℤ =>
        R (reflectIdx h ((y : ℤ) + dy)) (reflectIdx w ((x : ℤ) + dx)))
      = fun dy : ℤ => offs7.map fun dx : ℤ =>
        R' (reflectIdx h ((y : ℤ) + dy)) (reflectIdx w ((x : ℤ) + dx)) := by
    funext dy
    apply congrArg (offs7.map ·)
    funext dx
    exact he _ _ (reflectIdx_lt h _ hh) (reflectIdx_lt w _ hw)
  rw [hfun, he _ _ (reflectIdx_lt h _ hh) (reflectIdx_lt w _ hw)]

theorem computeLocalMaxima_congr {α : Type} [LinearOrder α] [DecidableEq α]
    (R R' : ℕ → ℕ → α) (h w y x : ℕ) (hy : y < h) (hx : x < w)
    (he : ∀ y' x', y' < h → x' < w → R y' x' = R' y' x') :
    HarrisKeypointDetector.computeLocalMaxima R h w y x =
      HarrisKeypointDetector.computeLocalMaxima R' h w y x := by
  unfold HarrisKeypointDetector.computeLocalMaxima
  rw [maximumFilter7_congr R R' h w y x (by omega) (by omega) he, he y x hy hx]

/-- A pixel carrying the global maximum of the field is marked by the
local-maxima mask. -/
theorem computeLocalMaxima_of_max {α : Type} [LinearOrder α] [DecidableEq α]
    (R : ℕ → ℕ → α) (h w y x : ℕ) (hy : y < h) (hx : x < w)
    (hmax : ∀ y' x', y' < h → x' < w → R y' x' ≤ R y x) :
    HarrisKeypointDetector.computeLocalMaxima R h w y x = true := by
  rw [computeLocalMaxima_iff R h w y x hy hx]
  apply le_antisymm
  · exact le_foldl_max_init _ _
  apply foldl_max_le (le_refl _)
  intro v hv
  rw [List.mem_map] at hv
  obtain ⟨⟨b, a⟩, hp, hv⟩ := hv
  subst hv
  rw [mem_clippedWindow] at hp
  exact hmax b a hp.1 hp.2.1

/-- In-bounds entries of the detector's matrices are the corresponding
field values. -/
theorem hMatOf_entry (image : ℕ → ℕ → ℝ × ℝ × ℝ) (h w y x : ℕ)
    (hy : y < h) (hx : x < w) :
    matEntry (hMatOf image h w) y x =
      HarrisKeypointDetector.harrisF (grayOf image) h w y x :=
  mkMat_entry h w _ [] 0 y x hy hx

theorem oMatOf_entry (image : ℕ → ℕ → ℝ × ℝ × ℝ) (h w y x : ℕ)
    (hy : y < h) (hx : x < w) :
    matEntry (oMatOf image h w) y x =
      HarrisKeypointDetector.orientationF (grayOf image) h w y x :=
  mkMat_entry h w _ [] 0 y x hy hx

/-- Claim **C6.** `detectKeypoints` returns one keypoint per mask-true pixel,
visited in row-major order (`y` outer, `x` inner); each emitted keypoint
has `size = 10`, `pt = (x, y)`, `angle` equal to the orientation field at
the pixel and `response` equal to the Harris field at the pixel. -/
theorem claim_C6_detectKeypoints_row_major (image : ℕ → ℕ → ℝ × ℝ × ℝ) (h w : ℕ) :
    HarrisKeypointDetector.detectKeypoints image h w =
      ((rowMajorPixels h w).filter fun p =>
          HarrisKeypointDetector.computeLocalMaxima
            (HarrisKeypointDetector.harrisF (grayOf image) h w) h w p.1 p.2).map
        fun p =>
          ⟨((p.2 : ℝ), (p.1 : ℝ)), 10,
           HarrisKeypointDetector.orientationF (grayOf image) h w p.1 p.2,
           HarrisKeypointDetector.harrisF (grayOf image) h w p.1 p.2⟩ := by
  rw [detectKeypoints_eq]
  have hfilter : (rowMajorPixels h w).filter (fun p => maskOf image h w p.1 p.2)
      = (rowMajorPixels h w).filter fun p =>
          HarrisKeypointDetector.computeLocalMaxima
            (HarrisKeypointDetector.harrisF (grayOf image) h w) h w p.1 p.2 := by
    apply List.filter_congr
    intro p hp
    obtain ⟨py, px⟩ := p
    obtain ⟨hy, hx⟩ := mem_rowMajorPixels.mp hp
    exact computeLocalMaxima_congr _ _ h w py px hy hx
      fun y' x' hy' hx' => hMatOf_entry image h w y' x' hy' hx'
  rw [hfilter]
  apply List.map_congr_left
  intro p hp
  obtain ⟨py, px⟩ := p
  obtain ⟨hy, hx⟩ := mem_rowMajorPixels.mp (List.mem_of_mem_filter hp)
  unfold kpOf
  rw [hMatOf_entry image h w py px hy hx, oMatOf_entry image h w py px hy hx]

/-- Claim **C10.** The local-maxima mask is true at every pixel attaining the
global maximum of the response field, hence is never all-false; as a
consequence `detectKeypoints` returns at least one keypoint on every
non-empty image. -/
theorem claim_C10_mask_nonempty :
    (∀ (R : ℕ → ℕ → ℝ) (h w y x : ℕ), y < h → x < w →
      (∀ y' x', y' < h → x' < w → R y' x' ≤ R y x) →
      HarrisKeypointDetector.computeLocalMaxima R h w y x = true) ∧
    (∀ (image : ℕ → ℕ → ℝ × ℝ × ℝ) (h w : ℕ), 0 < h → 0 < w →
      HarrisKeypointDetector.detectKeypoints image h w ≠ []) := by
  constructor
  · intro R h w y x hy hx hmax
    exact computeLocalMaxima_of_max R h w y x hy hx hmax
  · intro image h w hh hw
    obtain ⟨p, hpmem, hpmax⟩ :=
      Finset.exists_max_image ((Finset.range h) ×ˢ (Finset.range w))
        (fun p => matEntry (hMatOf image h w) p.1 p.2)
        ⟨(0, 0), by simp [Finset.mem_product, hh, hw]⟩
    obtain ⟨py, px⟩ := p
    rw [Finset.mem_product, Finset.mem_range, Finset.mem_range] at hpmem
    have hmask : maskOf image h w py px = true := by
      apply computeLocalMaxima_of_max _ h w py px hpmem.1 hpmem.2
      intro y' x' hy' hx'
      exact hpmax (y', x') (by simp [Finset.mem_product, hy', hx'])
    rw [detectKeypoints_eq]
    apply List.ne_nil_of_mem
    show kpOf image h w (py, px).1 (py, px).2 ∈ _
    apply List.mem_map_of_mem
    rw [List.mem_filter]
    exact ⟨mem_rowMajorPixels.mpr ⟨hpmem.1, hpmem.2⟩, hmask⟩

/-- Witness for C10: a constant 1×1 image; its single pixel is a global
maximum, the mask is true there, and the detector emits a keypoint. -/
theorem claim_C10_mask_nonempty_witness :
    HarrisKeypointDetector.computeLocalMaxima (fun _ _ => (0 : ℝ)) 1 1 0 0 = true ∧
    HarrisKeypointDetector.detectKeypoints (fun _ _ => ((0 : ℝ), (0 : ℝ), (0 : ℝ))) 1 1 ≠ [] :=
  ⟨claim_C10_mask_nonempty.1 (fun _ _ => (0 : ℝ)) 1 1 0 0 (by norm_num) (by norm_num)
      (fun _ _ _ _ => le_refl 0),
   claim_C10_mask_nonempty.2 (fun _ _ => ((0 : ℝ), (0 : ℝ), (0 : ℝ))) 1 1
      (by norm_num) (by norm_num)⟩

/-! ### `SimpleFeatureDescriptor.describeFeatures` (features.py:217-252)

The implementation scales the image, converts it to grayscale and
allocates a `K × 25` zero matrix; the per-keypoint loop body then executes
`desc[i][j] = pindex_xel` (features.py:250), but the name `j` is never
bound anywhere in the function or module, so the write raises `NameError`
on the first loop iteration of the first keypoint.  Only for an empty
keypoint list does the function return its (still all-zero) `0 × 25`
matrix. -/

namespace SimpleFeatureDescriptor

def describeFeatures (image : ℕ → ℕ → ℝ × ℝ × ℝ) (h w : ℕ)
    (keypoints : List KeyPoint) : Except String (List (List ℝ)) :=
  keypoints.foldl
    (fun acc _ => acc.bind fun _ => Except.error "NameError: name j is not defined")
    (Except.ok (keypoints.map fun _ => List.replicate 25 (0 : ℝ)))

end SimpleFeatureDescriptor

/-- Claim **C2 (code bug).** The claim says `describeFeatures` returns a `K × 25`
matrix of 5×5 window intensities; the code instead raises
`NameError: name j is not defined` for every non-empty keypoint list,
because the write target index `j` of features.py:250 is never bound.
This theorem evaluates the embedded code at a concrete failing input:
a 5×5 black image with the single keypoint `(2, 2)`. -/
theorem claim_C2_simple_describe_raises :
    SimpleFeatureDescriptor.describeFeatures
        (fun _ _ => ((0 : ℝ), (0 : ℝ), (0 : ℝ))) 5 5
        [⟨((2 : ℝ), (2 : ℝ)), 10, 0, 0⟩]
      = Except.error "NameError: name j is not defined" := rfl

/-! ### Matchers: shared infrastructure -/

/-- Embeds `cv2.DMatch` as filled in by the matchers. -/
structure DMatch where
  queryIdx : ℕ
  trainIdx : ℕ
  distance : ℝ

/-- A numpy array as the matchers see it: a shape tuple plus (for the 2-D
case the asserts admit) a row/column entry function. -/
structure NDArray where
  shape : List ℕ
  entry : ℕ → ℕ → ℝ

namespace NDArray

/-- Embeds `desc.ndim`. -/
def ndim (d : NDArray) : ℕ := d.shape.length

/-- Embeds `desc.shape[0]`. -/
def rows (d : NDArray) : ℕ := d.shape.getD 0 0

/-- Embeds `desc.shape[1]`. -/
def cols (d : NDArray) : ℕ := d.shape.getD 1 0

end NDArray

/-- Euclidean distance of two `D`-dimensional descriptor rows, as computed
by `scipy.spatial.distance.cdist(·, ·, 'euclidean')`. -/
noncomputable def euclid (u v : ℕ → ℝ) (D : ℕ) : ℝ :=
  Real.sqrt (((List.range D).map fun j => (u j - v j) ^ 2).sum)

/-- Row `i` of the `K1 × K2` distance matrix
`scipy.spatial.distance.cdist(desc1, desc2, 'euclidean')`. -/
noncomputable def cdistRow (d1 d2 : NDArray) (i : ℕ) : List ℝ :=
  (List.range d2.rows).map fun j => euclid (d1.entry i) (d2.entry j) d1.cols

/-- The value `foldl min` seeded with a first element: the minimum of `a :: l`. -/
def listMin {α : Type} [LinearOrder α] (a : α) (l : List α) : α := l.foldl min a

/-- numpy `argmin` over a 1-D array: index of the first occurrence of the
minimum (numpy documents first-occurrence tie-breaking). -/
def argminList {α : Type} [LinearOrder α] : List α → ℕ
  | [] => 0
  | [_] => 0
  | a :: b :: t => if a ≤ listMin b t then 0 else argminList (b :: t) + 1

section MinLemmas

variable {α : Type} [LinearOrder α]

theorem foldl_min_le_init (l : List α) (a : α) : l.foldl min a ≤ a := by
  induction l generalizing a with
  | nil => exact le_refl a
  | cons b t ih =>
    rw [List.foldl_cons]
    exact le_trans (ih (min a b)) (min_le_left a b)

theorem foldl_min_le_of_mem {l : List α} {b : α} (hb : b ∈ l) (a : α) :
    l.foldl min a ≤ b := by
  induction l generalizing a with
  | nil => cases hb
  | cons c t ih =>
    rw [List.foldl_cons]
    rcases List.mem_cons.mp hb with h | h
    · subst h
      exact le_trans (foldl_min_le_init t (min a b)) (min_le_right a b)
    · exact ih h (min a c)

theorem le_foldl_min {l : List α} {a c : α} (ha : c ≤ a)
    (hl : ∀ b ∈ l, c ≤ b) : c ≤ l.foldl min a := by
  induction l generalizing a with
  | nil => exact ha
  | cons b t ih =>
    rw [List.foldl_cons]
    exact ih (le_min ha (hl b (List.mem_cons_self b t)))
      fun x hx => hl x (List.mem_cons_of_mem b hx)

theorem foldl_min_assoc (t : List α) (a b : α) :
    t.foldl min (min a b) = min a (t.foldl min b) := by
  induction t generalizing a b with
  | nil => rfl
  | cons c t ih =>
    rw [List.foldl_cons, List.foldl_cons, min_assoc, ih a (min b c)]

theorem listMin_cons (a b : α) (t : List α) :
    listMin a (b :: t) = min a (listMin b t) := by
  unfold listMin
  rw [List.foldl_cons, foldl_min_assoc]

end MinLemmas

theorem getD_zero_eq_getElem (l : List ℝ) (i : ℕ) (h : i < l.length) :
    l.getD i 0 = l[i] := by
  simp [List.getD_eq_getElem?_getD, List.getElem?_eq_getElem h]

theorem argminList_lt {l : List ℝ} (hl : l ≠ []) : argminList l < l.length := by
  induction l with
  | nil => exact absurd rfl hl
  | cons a t ih =>
    cases t with
    | nil => simp [argminList]
    | cons b t' =>
      rw [argminList]
      split
      · simp
      · have := ih (by simp)
        simp only [List.length_cons] at *
        omega

theorem argminList_getD (a : ℝ) (l : List ℝ) :
    (a :: l).getD (argminList (a :: l)) 0 = listMin a l := by
  induction l generalizing a with
  | nil => rfl
  | cons b t ih =>
    rw [argminList]
    split
    · rename_i hle
      rw [List.getD_cons_zero, listMin_cons, min_eq_left hle]
    · rename_i hlt
      rw [List.getD_cons_succ, ih b, listMin_cons,
        min_eq_right (le_of_lt (lt_of_not_le hlt))]

theorem argminList_le (l : List ℝ) (j : ℕ) (hj : j < l.length) :
    l.getD (argminList l) 0 ≤ l.getD j 0 := by
  cases l with
  | nil => simp at hj
  | cons a t =>
    rw [argminList_getD a t]
    cases j with
    | zero =>
      rw [List.getD_cons_zero]
      exact foldl_min_le_init t a
    | succ k =>
      rw [List.getD_cons_succ]
      have hk : k < t.length := by simp at hj; omega
      rw [getD_zero_eq_getElem t k hk]
      exact foldl_min_le_of_mem (List.getElem_mem hk) a

theorem argminList_first (l : List ℝ) (j : ℕ) (hj : j < argminList l) :
    l.getD (argminList l) 0 < l.getD j 0 := by
  induction l generalizing j with
  | nil => simp [argminList] at hj
  | cons a t ih =>
    cases t with
    | nil => simp [argminList] at hj
    | cons b t' =>
      rw [argminList] at hj ⊢
      split at hj
      · omega
      · rename_i hlt
        rw [if_neg hlt, List.getD_cons_succ]
        cases j with
        | zero =>
          rw [List.getD_cons_zero, argminList_getD b t']
          exact lt_of_not_le hlt
        | succ k =>
          rw [List.getD_cons_succ]
          exact ih k (by omega)

/-! ### `SSDFeatureMatcher.matchFeatures` (features.py:401-447) and
`RatioFeatureMatcher.matchFeatures` (features.py:449-522)

Both begin with `assert desc1.ndim == 2`, `assert desc2.ndim == 2`,
`assert desc1.shape[1] == desc2.shape[1]` (embedded as `Except.error`
returned before any distance is computed), then return `[]` when either
input has zero rows, and only then compute the distance matrix. -/

namespace SSDFeatureMatcher

/-- Per-row computation of features.py:437-445: `indexes = dist.argmin(1)`
and the loop setting `queryIdx = i`, `trainIdx = indexes[i]`,
`distance = dist[i][trainIdx]`. -/
noncomputable def ssdRow (desc1 desc2 : NDArray) (i : ℕ) : DMatch :=
  ⟨i, argminList (cdistRow desc1 desc2 i),
   (cdistRow desc1 desc2 i).getD (argminList (cdistRow desc1 desc2 i)) 0⟩

noncomputable def matchFeatures (desc1 desc2 : NDArray) : Except String (List DMatch) :=
  if desc1.ndim ≠ 2 then Except.error "AssertionError: desc1.ndim == 2"
  else if desc2.ndim ≠ 2 then Except.error "AssertionError: desc2.ndim == 2"
  else if desc1.cols ≠ desc2.cols then
    Except.error "AssertionError: desc1.shape[1] == desc2.shape[1]"
  else if desc1.rows = 0 ∨ desc2.rows = 0 then Except.ok []
  else Except.ok ((List.range desc1.rows).map fun i => ssdRow desc1 desc2 i)

end SSDFeatureMatcher

namespace RatioFeatureMatcher

/-- Per-row computation of features.py:485-518: take the argmin `train[i]`
of row `i` of the distance matrix, record `dist_1[i] = dist[i][train[i]]`,
overwrite `dist[i][train[i]] = 1000`, take the argmin of the modified row
(`second_min_indexes[i]`), record `second_dist[i]` there, and emit score
`dist_1[i]/second_dist[i]` unless `second_dist[i] == 0`, in which case 1. -/
noncomputable def ratioRow (desc1 desc2 : NDArray) (i : ℕ) : DMatch :=
  let row := cdistRow desc1 desc2 i
  let t := argminList row
  let dist1 := row.getD t 0
  let row2 := row.set t 1000
  let s := argminList row2
  let secondDist := row2.getD s 0
  ⟨i, t, if secondDist ≠ 0 then dist1 / secondDist else 1⟩

noncomputable def matchFeatures (desc1 desc2 : NDArray) : Except String (List DMatch) :=
  if desc1.ndim ≠ 2 then Except.error "AssertionError: desc1.ndim == 2"
  else if desc2.ndim ≠ 2 then Except.error "AssertionError: desc2.ndim == 2"
  else if desc1.cols ≠ desc2.cols then
    Except.error "AssertionError: desc1.shape[1] == desc2.shape[1]"
  else if desc1.rows = 0 ∨ desc2.rows = 0 then Except.ok []
  else Except.ok ((List.range desc1.rows).map fun i => ratioRow desc1 desc2 i)

end RatioFeatureMatcher

/-- Claim **C8.** Both matchers fail as a fatal precondition violation (an
`assert`, embedded as an error result produced before any distance is
computed) whenever either input is not exactly 2-dimensional or the column
counts differ; and with well-formed inputs of which either has zero rows
they return an empty match list without raising. -/
theorem claim_C8_matcher_preconditions :
    (∀ d1 d2 : NDArray, (d1.ndim ≠ 2 ∨ d2.ndim ≠ 2 ∨ d1.cols ≠ d2.cols) →
      (∃ e, SSDFeatureMatcher.matchFeatures d1 d2 = Except.error e) ∧
      (∃ e, RatioFeatureMatcher.matchFeatures d1 d2 = Except.error e)) ∧
    (∀ d1 d2 : NDArray, d1.ndim = 2 → d2.ndim = 2 → d1.cols = d2.cols →
      (d1.rows = 0 ∨ d2.rows = 0) →
      SSDFeatureMatcher.matchFeatures d1 d2 = Except.ok [] ∧
      RatioFeatureMatcher.matchFeatures d1 d2 = Except.ok []) := by
  constructor
  · intro d1 d2 hbad
    constructor
    · unfold SSDFeatureMatcher.matchFeatures
      split_ifs with h1 h2 h3 h4
      · exact ⟨_, rfl⟩
      · exact ⟨_, rfl⟩
      · exact ⟨_, rfl⟩
      · exact absurd hbad (by tauto)
      · exact absurd hbad (by tauto)
    · unfold RatioFeatureMatcher.matchFeatures
      split_ifs with h1 h2 h3 h4
      · exact ⟨_, rfl⟩
      · exact ⟨_, rfl⟩
      · exact ⟨_, rfl⟩
      · exact absurd hbad (by tauto)
      · exact absurd hbad (by tauto)
  · intro d1 d2 h1 h2 hc hz
    constructor
    · unfold SSDFeatureMatcher.matchFeatures
      split_ifs with g1 g2 g3
      · exact absurd h1 g1
      · exact absurd h2 g2
      · exact absurd hc g3
      · rfl
    · unfold RatioFeatureMatcher.matchFeatures
      split_ifs with g1 g2 g3
      · exact absurd h1 g1
      · exact absurd h2 g2
      · exact absurd hc g3
      · rfl

/-- Witness for C8: a 1-dimensional `desc1` is rejected by both matchers;
a well-formed pair whose first member has zero rows yields empty match
lists. -/
theorem claim_C8_matcher_preconditions_witness :
    (∃ e, SSDFeatureMatcher.matchFeatures ⟨[3], fun _ _ => 0⟩ ⟨[2, 2], fun _ _ => 0⟩
        = Except.error e) ∧
    (∃ e, RatioFeatureMatcher.matchFeatures ⟨[3], fun _ _ => 0⟩ ⟨[2, 2], fun _ _ => 0⟩
        = Except.error e) ∧
    SSDFeatureMatcher.matchFeatures ⟨[0, 2], fun _ _ => 0⟩ ⟨[2, 2], fun _ _ => 0⟩
        = Except.ok [] ∧
    RatioFeatureMatcher.matchFeatures ⟨[0, 2], fun _ _ => 0⟩ ⟨[2, 2], fun _ _ => 0⟩
        = Except.ok [] := by
  refine ⟨?_, ?_, ?_, ?_⟩
  · exact (claim_C8_matcher_preconditions.1 ⟨[3], fun _ _ => 0⟩ ⟨[2, 2], fun _ _ => 0⟩
      (Or.inl (by simp [NDArray.ndim]))).1
  · exact (claim_C8_matcher_preconditions.1 ⟨[3], fun _ _ => 0⟩ ⟨[2, 2], fun _ _ => 0⟩
      (Or.inl (by simp [NDArray.ndim]))).2
  · exact (claim_C8_matcher_preconditions.2 ⟨[0, 2], fun _ _ => 0⟩ ⟨[2, 2], fun _ _ => 0⟩
      (by simp [NDArray.ndim]) (by simp [NDArray.ndim]) (by simp [NDArray.cols])
      (Or.inl (by simp [NDArray.rows]))).1
  · exact (claim_C8_matcher_preconditions.2 ⟨[0, 2], fun _ _ => 0⟩ ⟨[2, 2], fun _ _ => 0⟩
      (by simp [NDArray.ndim]) (by simp [NDArray.ndim]) (by simp [NDArray.cols])
      (Or.inl (by simp [NDArray.rows]))).2

/-! ### Shared matcher lemmas -/

theorem getD_range_map {β : Type} (g : ℕ → β) (n i : ℕ) (d : β) (hi : i < n) :
    ((List.range n).map g).getD i d = g i := by
  simp [List.getD_eq_getElem?_getD, List.getElem?_map, List.getElem?_range, hi]

theorem cdistRow_length (d1 d2 : NDArray) (i : ℕ) :
    (cdistRow d1 d2 i).length = d2.rows := by
  simp [cdistRow]

theorem cdistRow_getD (d1 d2 : NDArray) (i j : ℕ) (hj : j < d2.rows) :
    (cdistRow d1 d2 i).getD j 0 = euclid (d1.entry i) (d2.entry j) d1.cols :=
  getD_range_map _ _ _ _ hj

theorem euclid_nonneg (u v : ℕ → ℝ) (D : ℕ) : 0 ≤ euclid u v D :=
  Real.sqrt_nonneg _

theorem euclid_self (u : ℕ → ℝ) (D : ℕ) : euclid u u D = 0 := by
  unfold euclid
  have hsum : (((List.range D).map fun j => (u j - u j) ^ 2).sum) = 0 := by
    apply List.sum_eq_zero
    intro v hv
    rw [List.mem_map] at hv
    obtain ⟨j, _, hv⟩ := hv
    rw [← hv]
    ring
  rw [hsum, Real.sqrt_zero]

theorem euclid_pos_of_ne (u v : ℕ → ℝ) (D j : ℕ) (hj : j < D) (hne : u j ≠ v j) :
    0 < euclid u v D := by
  unfold euclid
  apply Real.sqrt_pos.mpr
  have hmem : (u j - v j) ^ 2 ∈ (List.range D).map fun k => (u k - v k) ^ 2 :=
    List.mem_map_of_mem _ (List.mem_range.mpr hj)
  have hne0 : u j - v j ≠ 0 := sub_ne_zero.mpr hne
  have hpos : 0 < (u j - v j) ^ 2 :=
    lt_of_le_of_ne (sq_nonneg _) (Ne.symm (pow_ne_zero 2 hne0))
  have hall : ∀ x ∈ (List.range D).map fun k => (u k - v k) ^ 2, (0 : ℝ) ≤ x := by
    intro x hx
    rw [List.mem_map] at hx
    obtain ⟨k, _, hx⟩ := hx
    rw [← hx]
    exact sq_nonneg _
  exact lt_of_lt_of_le hpos (List.single_le_sum hall _ hmem)

/-- On well-formed non-empty inputs the SSD matcher returns one `ssdRow`
per query row. -/
theorem ssd_matchFeatures_char (d1 d2 : NDArray) (h1 : d1.ndim = 2)
    (h2 : d2.ndim = 2) (hc : d1.cols = d2.cols) (hr1 : 0 < d1.rows)
    (hr2 : 0 < d2.rows) :
    SSDFeatureMatcher.matchFeatures d1 d2 =
      Except.ok ((List.range d1.rows).map fun i => SSDFeatureMatcher.ssdRow d1 d2 i) := by
  unfold SSDFeatureMatcher.matchFeatures
  rw [if_neg (by simp [h1]), if_neg (by simp [h2]), if_neg (by simp [hc]),
    if_neg (by omega)]

/-- Claim **C4.** On non-empty 2-D descriptor matrices with equal column count,
the SSD matcher emits for each query row `i` one match whose `queryIdx` is
`i`, whose `trainIdx` is a minimiser of the Euclidean distance over all
train rows with ties broken by the lowest train index, and whose score is
that minimum distance.  (Several query rows may share a train index: the
output imposes no injectivity.) -/
theorem claim_C4_ssd_match_spec (d1 d2 : NDArray) (h1 : d1.ndim = 2)
    (h2 : d2.ndim = 2) (hc : d1.cols = d2.cols) (hr1 : 0 < d1.rows)
    (hr2 : 0 < d2.rows) :
    ∃ L, SSDFeatureMatcher.matchFeatures d1 d2 = Except.ok L ∧
      L.length = d1.rows ∧
      ∀ i, i < d1.rows →
        ((L.getD i ⟨0, 0, 0⟩).queryIdx = i ∧
         (L.getD i ⟨0, 0, 0⟩).trainIdx < d2.rows ∧
         (L.getD i ⟨0, 0, 0⟩).distance =
           euclid (d1.entry i) (d2.entry ((L.getD i ⟨0, 0, 0⟩).trainIdx)) d1.cols ∧
         (∀ j, j < d2.rows →
           (L.getD i ⟨0, 0, 0⟩).distance ≤ euclid (d1.entry i) (d2.entry j) d1.cols) ∧
         (∀ j, j < (L.getD i ⟨0, 0, 0⟩).trainIdx →
           (L.getD i ⟨0, 0, 0⟩).distance < euclid (d1.entry i) (d2.entry j) d1.cols)) := by
  refine ⟨_, ssd_matchFeatures_char d1 d2 h1 h2 hc hr1 hr2, by simp, ?_⟩
  intro i hi
  rw [getD_range_map _ _ _ _ hi]
  have hlen : (cdistRow d1 d2 i).length = d2.rows := cdistRow_length d1 d2 i
  have hne : cdistRow d1 d2 i ≠ [] := by
    apply List.ne_nil_of_length_pos
    omega
  have ht : argminList (cdistRow d1 d2 i) < d2.rows := by
    have := argminList_lt hne
    omega
  refine ⟨rfl, ht, ?_, ?_, ?_⟩
  · exact cdistRow_getD d1 d2 i _ ht
  · intro j hj
    have hle := argminList_le (cdistRow d1 d2 i) j (by omega)
    rw [cdistRow_getD d1 d2 i j hj] at hle
    exact hle
  · intro j hj
    have hj' : j < argminList (cdistRow d1 d2 i) := hj
    have hlt := argminList_first (cdistRow d1 d2 i) j hj'
    rw [cdistRow_getD d1 d2 i j (by omega)] at hlt
    exact hlt

/-- Witness for C4 at a concrete pair of 1-column descriptor matrices. -/
theorem claim_C4_ssd_match_spec_witness :
    ∃ L, SSDFeatureMatcher.matchFeatures ⟨[1, 1], fun _ _ => 0⟩
        ⟨[2, 1], fun i _ => if i = 0 then 1 else 2⟩ = Except.ok L ∧
      L.length = (⟨[1, 1], fun _ _ => 0⟩ : NDArray).rows ∧
      ∀ i, i < (⟨[1, 1], fun _ _ => 0⟩ : NDArray).rows →
        ((L.getD i ⟨0, 0, 0⟩).queryIdx = i ∧
         (L.getD i ⟨0, 0, 0⟩).trainIdx < (⟨[2, 1], fun i _ => if i = 0 then 1 else 2⟩ : NDArray).rows ∧
         (L.getD i ⟨0, 0, 0⟩).distance =
           euclid ((⟨[1, 1], fun _ _ => 0⟩ : NDArray).entry i)
             ((⟨[2, 1], fun i _ => if i = 0 then 1 else 2⟩ : NDArray).entry
               ((L.getD i ⟨0, 0, 0⟩).trainIdx))
             (⟨[1, 1], fun _ _ => 0⟩ : NDArray).cols ∧
         (∀ j, j < (⟨[2, 1], fun i _ => if i = 0 then 1 else 2⟩ : NDArray).rows →
           (L.getD i ⟨0, 0, 0⟩).distance ≤
             euclid ((⟨[1, 1], fun _ _ => 0⟩ : NDArray).entry i)
               ((⟨[2, 1], fun i _ => if i = 0 then 1 else 2⟩ : NDArray).entry j)
               (⟨[1, 1], fun _ _ => 0⟩ : NDArray).cols) ∧
         (∀ j, j < (L.getD i ⟨0, 0, 0⟩).trainIdx →
           (L.getD i ⟨0, 0, 0⟩).distance <
             euclid ((⟨[1, 1], fun _ _ => 0⟩ : NDArray).entry i)
               ((⟨[2, 1], fun i _ => if i = 0 then 1 else 2⟩ : NDArray).entry j)
               (⟨[1, 1], fun _ _ => 0⟩ : NDArray).cols)) :=
  claim_C4_ssd_match_spec ⟨[1, 1], fun _ _ => 0⟩ ⟨[2, 1], fun i _ => if i = 0 then 1 else 2⟩
    rfl rfl rfl (by norm_num [NDArray.rows]) (by norm_num [NDArray.rows])

/-- Claim **C9.** Matching a non-empty well-formed descriptor matrix with
pairwise-distinct rows against itself with the SSD matcher yields, for
every row `i`, the match `queryIdx = trainIdx = i` with score `0`. -/
theorem claim_C9_ssd_self_match (d : NDArray) (h2d : d.ndim = 2)
    (hr : 0 < d.rows)
    (hdist : ∀ i1 i2, i1 < d.rows → i2 < d.rows → i1 ≠ i2 →
      ∃ j, j < d.cols ∧ d.entry i1 j ≠ d.entry i2 j) :
    SSDFeatureMatcher.matchFeatures d d =
      Except.ok ((List.range d.rows).map fun i => ⟨i, i, 0⟩) := by
  rw [ssd_matchFeatures_char d d h2d h2d rfl hr hr]
  apply congrArg Except.ok
  apply List.map_congr_left
  intro i hi
  rw [List.mem_range] at hi
  have hlen : (cdistRow d d i).length = d.rows := cdistRow_length d d i
  have hne : cdistRow d d i ≠ [] := by
    apply List.ne_nil_of_length_pos
    omega
  have ht : argminList (cdistRow d d i) < d.rows := by
    have := argminList_lt hne
    omega
  have hself : (cdistRow d d i).getD i 0 = 0 := by
    rw [cdistRow_getD d d i i hi, euclid_self]
  have hmin : (cdistRow d d i).getD (argminList (cdistRow d d i)) 0 ≤ 0 := by
    have := argminList_le (cdistRow d d i) i (by omega)
    rwa [hself] at this
  have hnn : 0 ≤ (cdistRow d d i).getD (argminList (cdistRow d d i)) 0 := by
    rw [cdistRow_getD d d i _ ht]
    exact euclid_nonneg _ _ _
  have hzero : (cdistRow d d i).getD (argminList (cdistRow d d i)) 0 = 0 :=
    le_antisymm hmin hnn
  have hti : argminList (cdistRow d d i) = i := by
    by_contra hcontra
    obtain ⟨j, hj, hjne⟩ := hdist i (argminList (cdistRow d d i)) hi ht
      fun he => hcontra he.symm
    have hpos := euclid_pos_of_ne (d.entry i) (d.entry (argminList (cdistRow d d i)))
      d.cols j hj hjne
    rw [← cdistRow_getD d d i _ ht] at hpos
    exact absurd hzero (ne_of_gt hpos)
  unfold SSDFeatureMatcher.ssdRow
  rw [hti, hself]

/-- Witness for C9: the 2×1 matrix with rows `[0]` and `[1]` matched
against itself. -/
theorem claim_C9_ssd_self_match_witness :
    SSDFeatureMatcher.matchFeatures ⟨[2, 1], fun i _ => (i : ℝ)⟩
        ⟨[2, 1], fun i _ => (i : ℝ)⟩ =
      Except.ok ((List.range (⟨[2, 1], fun i _ => (i : ℝ)⟩ : NDArray).rows).map
        fun i => ⟨i, i, 0⟩) :=
  claim_C9_ssd_self_match ⟨[2, 1], fun i _ => (i : ℝ)⟩ rfl
    (by norm_num [NDArray.rows])
    (fun i1 i2 _ _ hne =>
      ⟨0, by norm_num [NDArray.cols], fun he => hne (Nat.cast_injective he)⟩)

theorem getD_set_self (l : List ℝ) (t : ℕ) (v : ℝ) (ht : t < l.length) :
    (l.set t v).getD t 0 = v := by
  have hlen : t < (l.set t v).length := by simp [ht]
  rw [getD_zero_eq_getElem _ _ hlen, List.getElem_set_self]

theorem getD_set_ne (l : List ℝ) (t j : ℕ) (v : ℝ) (hj : j < l.length)
    (hne : t ≠ j) : (l.set t v).getD j 0 = l.getD j 0 := by
  have hlen : j < (l.set t v).length := by simp [hj]
  rw [getD_zero_eq_getElem _ _ hlen, getD_zero_eq_getElem _ _ hj,
    List.getElem_set_ne hne]

/-- On well-formed non-empty inputs the ratio matcher returns one
`ratioRow` per query row. -/
theorem ratio_matchFeatures_char (d1 d2 : NDArray) (h1 : d1.ndim = 2)
    (h2 : d2.ndim = 2) (hc : d1.cols = d2.cols) (hr1 : 0 < d1.rows)
    (hr2 : 0 < d2.rows) :
    RatioFeatureMatcher.matchFeatures d1 d2 =
      Except.ok ((List.range d1.rows).map fun i => RatioFeatureMatcher.ratioRow d1 d2 i) := by
  unfold RatioFeatureMatcher.matchFeatures
  rw [if_neg (by simp [h1]), if_neg (by simp [h2]), if_neg (by simp [hc]),
    if_neg (by omega)]

/-- Claim **C1 (amended).** On non-empty 2-D descriptor matrices with equal
column count, the ratio matcher emits for each query row `i` exactly one
match whose `trainIdx` minimises the Euclidean distance over all train
rows (lowest index on ties, the distance there being `d1`), and whose
score is `d1 / d2` — where `d2` is **the minimum of the sentinel `1000`
and the distances to all other train rows** (the code overwrites the best
entry with `1000` rather than `∞` before the second minimum; in
particular `d2 = 1000` when there is a single train row) — except that
the score is `1` when that `d2` is `0`. -/
theorem claim_C1_ratio_match_amended (d1 d2 : NDArray) (h1 : d1.ndim = 2)
    (h2 : d2.ndim = 2) (hc : d1.cols = d2.cols) (hr1 : 0 < d1.rows)
    (hr2 : 0 < d2.rows) :
    ∃ L, RatioFeatureMatcher.matchFeatures d1 d2 = Except.ok L ∧
      L.length = d1.rows ∧
      ∀ i, i < d1.rows →
        ((L.getD i ⟨0, 0, 0⟩).queryIdx = i ∧
         (L.getD i ⟨0, 0, 0⟩).trainIdx < d2.rows ∧
         (∀ j, j < d2.rows →
           euclid (d1.entry i) (d2.entry ((L.getD i ⟨0, 0, 0⟩).trainIdx)) d1.cols ≤
             euclid (d1.entry i) (d2.entry j) d1.cols) ∧
         (∀ j, j < (L.getD i ⟨0, 0, 0⟩).trainIdx →
           euclid (d1.entry i) (d2.entry ((L.getD i ⟨0, 0, 0⟩).trainIdx)) d1.cols <
             euclid (d1.entry i) (d2.entry j) d1.cols) ∧
         ∃ d2v : ℝ,
           (d2v ≤ 1000 ∧
            (∀ j, j < d2.rows → j ≠ (L.getD i ⟨0, 0, 0⟩).trainIdx →
              d2v ≤ euclid (d1.entry i) (d2.entry j) d1.cols) ∧
            (d2v = 1000 ∨ ∃ j, j < d2.rows ∧ j ≠ (L.getD i ⟨0, 0, 0⟩).trainIdx ∧
              d2v = euclid (d1.entry i) (d2.entry j) d1.cols)) ∧
           (L.getD i ⟨0, 0, 0⟩).distance =
             if d2v = 0 then 1
             else euclid (d1.entry i) (d2.entry ((L.getD i ⟨0, 0, 0⟩).trainIdx)) d1.cols / d2v) := by
  refine ⟨_, ratio_matchFeatures_char d1 d2 h1 h2 hc hr1 hr2, by simp, ?_⟩
  intro i hi
  rw [getD_range_map _ _ _ _ hi]
  have hlen : (cdistRow d1 d2 i).length = d2.rows := cdistRow_length d1 d2 i
  have hne : cdistRow d1 d2 i ≠ [] := by
    apply List.ne_nil_of_length_pos
    omega
  have ht : argminList (cdistRow d1 d2 i) < d2.rows := by
    have := argminList_lt hne
    omega
  have htt : argminList (cdistRow d1 d2 i) < (cdistRow d1 d2 i).length := by omega
  -- the modified second row
  have hlen2 : ((cdistRow d1 d2 i).set (argminList (cdistRow d1 d2 i)) 1000).length
      = d2.rows := by simp [hlen]
  have hne2 : (cdistRow d1 d2 i).set (argminList (cdistRow d1 d2 i)) 1000 ≠ [] := by
    apply List.ne_nil_of_length_pos
    omega
  have hs : argminList ((cdistRow d1 d2 i).set (argminList (cdistRow d1 d2 i)) 1000)
      < d2.rows := by
    have := argminList_lt hne2
    omega
  refine ⟨rfl, ht, ?_, ?_, ?_⟩
  · intro j hj
    have hle := argminList_le (cdistRow d1 d2 i) j (by omega)
    rw [cdistRow_getD d1 d2 i j hj, cdistRow_getD d1 d2 i _ ht] at hle
    exact hle
  · intro j hj
    have hj' : j < argminList (cdistRow d1 d2 i) := hj
    have hlt := argminList_first (cdistRow d1 d2 i) j hj'
    rw [cdistRow_getD d1 d2 i j (by omega), cdistRow_getD d1 d2 i _ ht] at hlt
    exact hlt
  · refine ⟨((cdistRow d1 d2 i).set (argminList (cdistRow d1 d2 i)) 1000).getD
      (argminList ((cdistRow d1 d2 i).set (argminList (cdistRow d1 d2 i)) 1000)) 0,
      ⟨?_, ?_, ?_⟩, ?_⟩
    · -- bounded by the sentinel, which sits at the overwritten best index
      have hle := argminList_le ((cdistRow d1 d2 i).set (argminList (cdistRow d1 d2 i)) 1000)
        (argminList (cdistRow d1 d2 i)) (by omega)
      rwa [getD_set_self _ _ _ htt] at hle
    · -- bounded by every other distance
      intro j hj hjne
      have hjne' : j ≠ argminList (cdistRow d1 d2 i) := hjne
      have hle := argminList_le ((cdistRow d1 d2 i).set (argminList (cdistRow d1 d2 i)) 1000)
        j (by omega)
      rwa [getD_set_ne _ _ _ _ (by omega) (fun he => hjne' he.symm),
        cdistRow_getD d1 d2 i j hj] at hle
    · -- attained at the sentinel or at some other train row
      by_cases hst : argminList ((cdistRow d1 d2 i).set (argminList (cdistRow d1 d2 i)) 1000)
          = argminList (cdistRow d1 d2 i)
      · left
        rw [hst, getD_set_self _ _ _ htt]
      · right
        refine ⟨argminList ((cdistRow d1 d2 i).set (argminList (cdistRow d1 d2 i)) 1000),
          hs, hst, ?_⟩
        rw [getD_set_ne _ _ _ _ (by omega) (fun he => hst he.symm),
          cdistRow_getD d1 d2 i _ hs]
    · -- the emitted score
      show (RatioFeatureMatcher.ratioRow d1 d2 i).distance = _
      unfold RatioFeatureMatcher.ratioRow
      simp only []
      rw [cdistRow_getD d1 d2 i _ ht]
      by_cases h0 : ((cdistRow d1 d2 i).set (argminList (cdistRow d1 d2 i)) 1000).getD
          (argminList ((cdistRow d1 d2 i).set (argminList (cdistRow d1 d2 i)) 1000)) 0 = 0
      · rw [if_neg (by simpa using h0), if_pos h0]
      · rw [if_pos h0, if_neg h0]

/-- Witness for the amended C1 at a concrete pair: one 1-column query row
against two train rows. -/
theorem claim_C1_ratio_match_amended_witness :
    ∃ L, RatioFeatureMatcher.matchFeatures ⟨[1, 1], fun _ _ => 0⟩
        ⟨[2, 1], fun i _ => if i = 0 then 1200 else 1600⟩ = Except.ok L ∧
      L.length = (⟨[1, 1], fun _ _ => 0⟩ : NDArray).rows ∧
      ∀ i, i < (⟨[1, 1], fun _ _ => 0⟩ : NDArray).rows →
        ((L.getD i ⟨0, 0, 0⟩).queryIdx = i ∧
         (L.getD i ⟨0, 0, 0⟩).trainIdx <
           (⟨[2, 1], fun i _ => if i = 0 then 1200 else 1600⟩ : NDArray).rows ∧
         (∀ j, j < (⟨[2, 1], fun i _ => if i = 0 then 1200 else 1600⟩ : NDArray).rows →
           euclid ((⟨[1, 1], fun _ _ => 0⟩ : NDArray).entry i)
               ((⟨[2, 1], fun i _ => if i = 0 then 1200 else 1600⟩ : NDArray).entry
                 ((L.getD i ⟨0, 0, 0⟩).trainIdx))
               (⟨[1, 1], fun _ _ => 0⟩ : NDArray).cols ≤
             euclid ((⟨[1, 1], fun _ _ => 0⟩ : NDArray).entry i)
               ((⟨[2, 1], fun i _ => if i = 0 then 1200 else 1600⟩ : NDArray).entry j)
               (⟨[1, 1], fun _ _ => 0⟩ : NDArray).cols) ∧
         (∀ j, j < (L.getD i ⟨0, 0, 0⟩).trainIdx →
           euclid ((⟨[1, 1], fun _ _ => 0⟩ : NDArray).entry i)
               ((⟨[2, 1], fun i _ => if i = 0 then 1200 else 1600⟩ : NDArray).entry
                 ((L.getD i ⟨0, 0, 0⟩).trainIdx))
               (⟨[1, 1], fun _ _ => 0⟩ : NDArray).cols <
             euclid ((⟨[1, 1], fun _ _ => 0⟩ : NDArray).entry i)
               ((⟨[2, 1], fun i _ => if i = 0 then 1200 else 1600⟩ : NDArray).entry j)
               (⟨[1, 1], fun _ _ => 0⟩ : NDArray).cols) ∧
         ∃ d2v : ℝ,
           (d2v ≤ 1000 ∧
            (∀ j, j < (⟨[2, 1], fun i _ => if i = 0 then 1200 else 1600⟩ : NDArray).rows →
              j ≠ (L.getD i ⟨0, 0, 0⟩).trainIdx →
              d2v ≤ euclid ((⟨[1, 1], fun _ _ => 0⟩ : NDArray).entry i)
                ((⟨[2, 1], fun i _ => if i = 0 then 1200 else 1600⟩ : NDArray).entry j)
                (⟨[1, 1], fun _ _ => 0⟩ : NDArray).cols) ∧
            (d2v = 1000 ∨ ∃ j,
              j < (⟨[2, 1], fun i _ => if i = 0 then 1200 else 1600⟩ : NDArray).rows ∧
              j ≠ (L.getD i ⟨0, 0, 0⟩).trainIdx ∧
              d2v = euclid ((⟨[1, 1], fun _ _ => 0⟩ : NDArray).entry i)
                ((⟨[2, 1], fun i _ => if i = 0 then 1200 else 1600⟩ : NDArray).entry j)
                (⟨[1, 1], fun _ _ => 0⟩ : NDArray).cols)) ∧
           (L.getD i ⟨0, 0, 0⟩).distance =
             if d2v = 0 then 1
             else euclid ((⟨[1, 1], fun _ _ => 0⟩ : NDArray).entry i)
               ((⟨[2, 1], fun i _ => if i = 0 then 1200 else 1600⟩ : NDArray).entry
                 ((L.getD i ⟨0, 0, 0⟩).trainIdx))
               (⟨[1, 1], fun _ _ => 0⟩ : NDArray).cols / d2v) :=
  claim_C1_ratio_match_amended ⟨[1, 1], fun _ _ => 0⟩
    ⟨[2, 1], fun i _ => if i = 0 then 1200 else 1600⟩ rfl rfl rfl
    (by norm_num [NDArray.rows]) (by norm_num [NDArray.rows])

theorem euclid_one (u v : ℕ → ℝ) : euclid u v 1 = |u 0 - v 0| := by
  unfold euclid
  rw [show List.range 1 = [0] from rfl, List.map_cons, List.map_nil, List.sum_cons,
    List.sum_nil, add_zero, Real.sqrt_sq_eq_abs]

/-- Claim **C1 counterexample.** With the single query row `[0]` and train rows
`[1200]` and `[1600]`, the Euclidean distances are `1200 ≤ 1600`, so the
claim as stated requires score `d1/d2 = 1200/1600`.  The code instead
overwrites the best distance with the sentinel `1000` before taking the
second minimum, giving `second_dist = min(1000, 1600) = 1000` and score
`1200/1000 = 6/5 ≠ 1200/1600`. -/
theorem claim_C1_counterexample :
    cdistRow ⟨[1, 1], fun _ _ => 0⟩
        ⟨[2, 1], fun i _ => if i = 0 then 1200 else 1600⟩ 0 = [1200, 1600] ∧
    RatioFeatureMatcher.matchFeatures ⟨[1, 1], fun _ _ => 0⟩
        ⟨[2, 1], fun i _ => if i = 0 then 1200 else 1600⟩
      = Except.ok [⟨0, 0, 6 / 5⟩] ∧
    (6 / 5 : ℝ) ≠ 1200 / 1600 := by
  have habs : ∀ c : ℝ, 0 ≤ c → |(0 : ℝ) - c| = c := by
    intro c hc
    rw [zero_sub, abs_neg, abs_of_nonneg hc]
  have e0 : euclid ((⟨[1, 1], fun _ _ => 0⟩ : NDArray).entry 0)
      ((⟨[2, 1], fun i _ => if i = 0 then 1200 else 1600⟩ : NDArray).entry 0) 1 = 1200 := by
    rw [euclid_one]
    show |(0 : ℝ) - if (0 : ℕ) = 0 then (1200 : ℝ) else 1600| = 1200
    rw [if_pos rfl]
    exact habs 1200 (by norm_num)
  have e1 : euclid ((⟨[1, 1], fun _ _ => 0⟩ : NDArray).entry 0)
      ((⟨[2, 1], fun i _ => if i = 0 then 1200 else 1600⟩ : NDArray).entry 1) 1 = 1600 := by
    rw [euclid_one]
    show |(0 : ℝ) - if (1 : ℕ) = 0 then (1200 : ℝ) else 1600| = 1600
    rw [if_neg (by norm_num)]
    exact habs 1600 (by norm_num)
  have hrow : cdistRow ⟨[1, 1], fun _ _ => 0⟩
      ⟨[2, 1], fun i _ => if i = 0 then 1200 else 1600⟩ 0 = [1200, 1600] := by
    unfold cdistRow
    rw [show (⟨[2, 1], fun i _ => if i = 0 then (1200 : ℝ) else 1600⟩ : NDArray).rows = 2
        from rfl,
      show List.range 2 = [0, 1] from rfl, List.map_cons, List.map_cons, List.map_nil]
    rw [show (⟨[1, 1], fun _ _ => (0 : ℝ)⟩ : NDArray).cols = 1 from rfl]
    rw [e0, e1]
  have ham1 : argminList ([(1200 : ℝ), 1600]) = 0 := by
    simp only [argminList, listMin, List.foldl_nil]
    rw [if_pos (by norm_num)]
  have ham2 : argminList ([(1000 : ℝ), 1600]) = 0 := by
    simp only [argminList, listMin, List.foldl_nil]
    rw [if_pos (by norm_num)]
  refine ⟨hrow, ?_, by norm_num⟩
  rw [ratio_matchFeatures_char ⟨[1, 1], fun _ _ => 0⟩
    ⟨[2, 1], fun i _ => if i = 0 then 1200 else 1600⟩ rfl rfl rfl
    (by norm_num [NDArray.rows]) (by norm_num [NDArray.rows])]
  rw [show (⟨[1, 1], fun _ _ => (0 : ℝ)⟩ : NDArray).rows = 1 from rfl,
    show List.range 1 = [0] from rfl, List.map_cons, List.map_nil]
  apply congrArg Except.ok
  apply congrArg (fun m => [m])
  unfold RatioFeatureMatcher.ratioRow
  simp only [hrow, ham1]
  rw [show ([(1200 : ℝ), 1600]).set 0 1000 = [1000, 1600] from rfl, ham2]
  rw [show ([(1200 : ℝ), 1600]).getD 0 0 = 1200 from rfl,
    show ([(1000 : ℝ), 1600]).getD 0 0 = 1000 from rfl]
  rw [if_pos (by norm_num : (1000 : ℝ) ≠ 0)]
  norm_num

/-! ### `MOPSFeatureDescriptor.describeFeatures` (features.py:254-317) -/

/-- numpy `.mean()` of the (flattened) patch. -/
noncomputable def listMean (l : List ℝ) : ℝ := l.sum / l.length

/-- numpy `.std()`: the population standard deviation
`sqrt(mean((x - x.mean())²))`. -/
noncomputable def listStd (l : List ℝ) : ℝ :=
  Real.sqrt (((l.map fun v => (v - listMean l) ^ 2).sum) / l.length)

/-- Embeds `destImage.flatten()`: row-major flattening of an 8×8 patch. -/
def flatten8 (p : ℕ → ℕ → ℝ) : List ℝ :=
  (List.range 8).flatMap fun r => (List.range 8).map fun c => p r c

/-- Modelled from the spec: the similarity transform of §4.4 as a point
map.  features.py:286-296 composes `transformations.get_trans_mx`,
`get_rot_mx` and `get_scale_mx` (transformations.py is not under `src/`)
right-to-left: translate the keypoint to the origin, rotate by `-f.angle`
(degrees converted to radians), scale by 0.2 in both axes, translate by
`(+4, +4)`. -/
noncomputable def transMap (f : KeyPoint) : ℝ × ℝ → ℝ × ℝ := fun p =>
  let θ : ℝ := -f.angle / 180 * Real.pi
  let tx := p.1 - f.pt.1
  let ty := p.2 - f.pt.2
  (0.2 * (Real.cos θ * tx - Real.sin θ * ty) + 4,
   0.2 * (Real.sin θ * tx + Real.cos θ * ty) + 4)

namespace MOPSFeatureDescriptor

/-- The Gaussian-smoothed grayscale image computed once per call
(features.py:266-275): scale to `[0,1]`, convert BGR to grayscale, smooth
with `ndimage.gaussian_filter(·, 0.5)`. -/
noncomputable def mopsGray (image : ℕ → ℕ → ℝ × ℝ × ℝ) (h w : ℕ) : ℕ → ℕ → ℝ :=
  gaussian_filter05 (grayOf image) h w

/-- Embeds `MOPSFeatureDescriptor.describeFeatures` (features.py:256-317),
parametric in the external affine resampler `warp` (`cv2.warpAffine` with
`INTER_LINEAR`, an external collaborator that produces the 8×8 resampled
patch for the given transform; out-of-bounds samples are zero).  Per
keypoint: resample the smoothed grayscale image through the keypoint's
transform, then if `destImage.std() < 1e-10` write an all-zero 8×8 patch,
otherwise write `(destImage - destImage.mean()) / destImage.std()`, and
flatten the result row-major into the descriptor row. -/
noncomputable def describeFeatures
    (warp : (ℕ → ℕ → ℝ) → (ℝ × ℝ → ℝ × ℝ) → ℕ → ℕ → ℝ)
    (image : ℕ → ℕ → ℝ × ℝ × ℝ) (h w : ℕ) (keypoints : List KeyPoint) :
    List (List ℝ) :=
  keypoints.map fun f =>
    if listStd (flatten8 (warp (mopsGray image h w) (transMap f))) < 1e-10 then
      flatten8 (fun _ _ => 0)
    else
      flatten8 (fun r c =>
        (warp (mopsGray image h w) (transMap f) r c -
          listMean (flatten8 (warp (mopsGray image h w) (transMap f)))) /
        listStd (flatten8 (warp (mopsGray image h w) (transMap f))))

end MOPSFeatureDescriptor

theorem flatten8_const_zero : flatten8 (fun _ _ => (0 : ℝ)) = List.replicate 64 0 := rfl

theorem flatten8_comp (g : ℝ → ℝ) (p : ℕ → ℕ → ℝ) :
    flatten8 (fun r c => g (p r c)) = (flatten8 p).map g := by
  unfold flatten8
  rw [List.map_flatMap]
  apply congrArg
  funext r
  rw [List.map_map]
  rfl

theorem getD_map_get {β γ : Type} (F : β → γ) (l : List β) (i : ℕ) (d : γ)
    (hi : i < l.length) : (l.map F).getD i d = F (l.get ⟨i, hi⟩) := by
  rw [List.getD_eq_getElem?_getD, List.getElem?_map, List.getElem?_eq_getElem hi]
  rfl

/-- Claim **C7.** For every keypoint processed by the MOPS descriptor, if the
standard deviation of its resampled 8×8 patch is below `1e-10` the
corresponding descriptor row is the all-zero vector of length 64 (no error
is raised — the embedding is total); otherwise the row is the patch with
its mean subtracted and divided by its standard deviation, flattened
row-major. -/
theorem claim_C7_mops_normalize
    (warp : (ℕ → ℕ → ℝ) → (ℝ × ℝ → ℝ × ℝ) → ℕ → ℕ → ℝ)
    (image : ℕ → ℕ → ℝ × ℝ × ℝ) (h w : ℕ) (kps : List KeyPoint) (i : ℕ)
    (hi : i < kps.length) :
    (MOPSFeatureDescriptor.describeFeatures warp image h w kps).getD i [] =
      if listStd (flatten8 (warp (MOPSFeatureDescriptor.mopsGray image h w)
          (transMap (kps.get ⟨i, hi⟩)))) < 1e-10
      then List.replicate 64 (0 : ℝ)
      else (flatten8 (warp (MOPSFeatureDescriptor.mopsGray image h w)
          (transMap (kps.get ⟨i, hi⟩)))).map
        fun v => (v - listMean (flatten8 (warp (MOPSFeatureDescriptor.mopsGray image h w)
            (transMap (kps.get ⟨i, hi⟩))))) /
          listStd (flatten8 (warp (MOPSFeatureDescriptor.mopsGray image h w)
            (transMap (kps.get ⟨i, hi⟩)))) := by
  unfold MOPSFeatureDescriptor.describeFeatures
  rw [getD_map_get _ kps i [] hi]
  by_cases hstd : listStd (flatten8 (warp (MOPSFeatureDescriptor.mopsGray image h w)
      (transMap (kps.get ⟨i, hi⟩)))) < 1e-10
  · rw [if_pos hstd, if_pos hstd, flatten8_const_zero]
  · rw [if_neg hstd, if_neg hstd]
    exact flatten8_comp
      (fun v => (v - listMean (flatten8 (warp (MOPSFeatureDescriptor.mopsGray image h w)
          (transMap (kps.get ⟨i, hi⟩))))) /
        listStd (flatten8 (warp (MOPSFeatureDescriptor.mopsGray image h w)
          (transMap (kps.get ⟨i, hi⟩)))))
      (warp (MOPSFeatureDescriptor.mopsGray image h w) (transMap (kps.get ⟨i, hi⟩)))

/-- Witness for C7: the zero resampler on a 1×1 black image with one
keypoint; the patch is constant, its standard deviation is `0 < 1e-10`,
and the row is the zero vector. -/
theorem claim_C7_mops_normalize_witness :
    (MOPSFeatureDescriptor.describeFeatures (fun _ _ => fun _ _ => 0)
        (fun _ _ => ((0 : ℝ), (0 : ℝ), (0 : ℝ))) 1 1
        [⟨((0 : ℝ), (0 : ℝ)), 10, 0, 0⟩]).getD 0 [] =
      if listStd (flatten8 ((fun _ _ => fun _ _ => (0 : ℝ))
          (MOPSFeatureDescriptor.mopsGray (fun _ _ => ((0 : ℝ), (0 : ℝ), (0 : ℝ))) 1 1)
          (transMap (([⟨((0 : ℝ), (0 : ℝ)), 10, 0, 0⟩] : List KeyPoint).get
            ⟨0, by norm_num⟩)))) < 1e-10
      then List.replicate 64 (0 : ℝ)
      else (flatten8 ((fun _ _ => fun _ _ => (0 : ℝ))
          (MOPSFeatureDescriptor.mopsGray (fun _ _ => ((0 : ℝ), (0 : ℝ), (0 : ℝ))) 1 1)
          (transMap (([⟨((0 : ℝ), (0 : ℝ)), 10, 0, 0⟩] : List KeyPoint).get
            ⟨0, by norm_num⟩)))).map
        fun v => (v - listMean (flatten8 ((fun _ _ => fun _ _ => (0 : ℝ))
            (MOPSFeatureDescriptor.mopsGray (fun _ _ => ((0 : ℝ), (0 : ℝ), (0 : ℝ))) 1 1)
            (transMap (([⟨((0 : ℝ), (0 : ℝ)), 10, 0, 0⟩] : List KeyPoint).get
              ⟨0, by norm_num⟩))))) /
          listStd (flatten8 ((fun _ _ => fun _ _ => (0 : ℝ))
            (MOPSFeatureDescriptor.mopsGray (fun _ _ => ((0 : ℝ), (0 : ℝ), (0 : ℝ))) 1 1)
            (transMap (([⟨((0 : ℝ), (0 : ℝ)), 10, 0, 0⟩] : List KeyPoint).get
              ⟨0, by norm_num⟩)))) :=
  claim_C7_mops_normalize (fun _ _ => fun _ _ => 0)
    (fun _ _ => ((0 : ℝ), (0 : ℝ), (0 : ℝ))) 1 1
    [⟨((0 : ℝ), (0 : ℝ)), 10, 0, 0⟩] 0 (by norm_num)
